import Mathlib

/-!
Verification of `src/utils/hyphenate.py` (Liang hyphenation).

A shallow embedding of the `Hyphenator` class: pattern parsing, trie
construction, exception-map construction, the sliding trie scan with
pointwise-maximum aggregation, and the parity-based partition of the word
into pieces.

Python strings are modelled as `List Char`; Python's mutable point list is
a `List Int` threaded explicitly.  Operations that can raise in Python
(`int(...)` on a malformed segment, out-of-range list assignment) return
`Option`.
-/

namespace Hyphenate

/-- Python `str.split()` whitespace characters. -/
def isSpace (c : Char) : Bool :=
  c = ' ' || c = '\t' || c = '\n' || c = '\r' || c = '\x0b' || c = '\x0c'

/-- Lower-case ASCII letter, the class `[a-z]` used by the exception parser. -/
def isLowerAZ (c : Char) : Bool := 97 ≤ c.toNat && c.toNat ≤ 122

/-- ASCII digit, the class `[0-9]`. -/
def isDigitC (c : Char) : Bool := 48 ≤ c.toNat && c.toNat ≤ 57

/-- The character class `[.a-záéíóúüñ]` that `_insert_pattern` splits on. -/
def isPatLetter (c : Char) : Bool :=
  c = '.' || isLowerAZ c || c = 'á' || c = 'é' || c = 'í' || c = 'ó' ||
  c = 'ú' || c = 'ü' || c = 'ñ'

/-- Per-character model of Python `str.lower()` on the alphabet this program
uses: ASCII upper-case and the accented upper-case vowels and Ñ. -/
def pyLower (c : Char) : Char :=
  if 65 ≤ c.toNat && c.toNat ≤ 90 then Char.ofNat (c.toNat + 32)
  else if c = 'Á' then 'á' else if c = 'É' then 'é'
  else if c = 'Í' then 'í' else if c = 'Ó' then 'ó'
  else if c = 'Ú' then 'ú' else if c = 'Ü' then 'ü'
  else if c = 'Ñ' then 'ñ' else c

/-- `re.split` on a single-character class: cut the list at every character
satisfying `q`, keeping the (possibly empty) segments between cuts.  The
result always has `(count of matching chars) + 1` segments. -/
def splitOnPred (q : Char → Bool) : List Char → List (List Char)
  | [] => [[]]
  | c :: cs =>
    match splitOnPred q cs with
    | [] => if q c then [[], []] else [[c]]
    | s :: rest => if q c then [] :: s :: rest else (c :: s) :: rest

/-- Python `str.split()` with no argument: split on whitespace runs,
discarding empty tokens. -/
def pySplit (s : List Char) : List (List Char) :=
  (splitOnPred isSpace s).filter (· ≠ [])

/-- Value of a digit string (most significant first). -/
def natOfDigits (s : List Char) : Nat :=
  s.foldl (fun a c => 10 * a + (c.toNat - '0'.toNat)) 0

/-- Python `int(s)` on a stripped token: optional sign followed by a
nonempty digit run; anything else raises (`none`). -/
def pyInt? (s : List Char) : Option Int :=
  match s with
  | '-' :: rest =>
    if rest ≠ [] && rest.all isDigitC then some (-(natOfDigits rest : Int)) else none
  | '+' :: rest =>
    if rest ≠ [] && rest.all isDigitC then some (natOfDigits rest : Int) else none
  | _ =>
    if s ≠ [] && s.all isDigitC then some (natOfDigits s : Int) else none

/-- Python `int(d or 0)`: an empty segment means 0. -/
def segInt? (s : List Char) : Option Int :=
  if s = [] then some 0 else pyInt? s

/-- The nested-dict trie: an optional terminal payload (the `None` key of
the Python dict) plus an association list of children (the character
keys). -/
inductive Trie where
  | mk (payload : Option (List Int)) (children : List (Char × Trie)) : Trie

/-- Terminal payload of a node (`t[None]` when present). -/
def Trie.payload : Trie → Option (List Int)
  | .mk p _ => p

/-- Child list of a node. -/
def Trie.children : Trie → List (Char × Trie)
  | .mk _ ch => ch

/-- Lookup in an association list (Python dict read). -/
def assocFind? {α β : Type} [DecidableEq α] : List (α × β) → α → Option β
  | [], _ => none
  | (a, b) :: rest, k => if a = k then some b else assocFind? rest k

/-- Insert-or-replace in an association list (Python dict assignment). -/
def assocUpsert {α β : Type} [DecidableEq α] : List (α × β) → α → β → List (α × β)
  | [], k, v => [(k, v)]
  | (a, b) :: rest, k, v =>
    if a = k then (a, v) :: rest else (a, b) :: assocUpsert rest k v

/-- `t[c]` when present. -/
def Trie.find? (t : Trie) (c : Char) : Option Trie :=
  assocFind? t.children c

/-- The empty trie (`{}`). -/
def Trie.empty : Trie := .mk none []

/-- Walk/create one node per character and store `pts` as the terminal
payload at the end of the path, as in `_insert_pattern`'s loop. -/
def Trie.insert : Trie → List Char → List Int → Trie
  | .mk _ ch, [], pts => .mk (some pts) ch
  | .mk pay ch, c :: cs, pts =>
    .mk pay (assocUpsert ch c (((assocFind? ch c).getD Trie.empty).insert cs pts))

/-- Follow a whole character path from a node. -/
def Trie.findPath? : Trie → List Char → Option Trie
  | t, [] => some t
  | t, c :: cs => (t.find? c).bind (Trie.findPath? · cs)

/-- Payload stored at the end of a path, if the path exists and is
terminal. -/
def Trie.payloadAt (t : Trie) (path : List Char) : Option (List Int) :=
  (t.findPath? path).bind Trie.payload

/-- The list comprehension `[int(d or 0) for d in segments]`: evaluated
left to right, failing at the first segment that is not an integer
literal. -/
def segsInt? : List (List Char) → Option (List Int)
  | [] => some []
  | s :: rest => (segInt? s).bind (fun v => (segsInt? rest).map (v :: ·))

/-- `_insert_pattern`'s parse: `chars` is the pattern with `[0-9]` removed,
`points` the segments of the split on `[.a-záéíóúüñ]`, each fed through
`int(d or 0)`.  `none` when some segment is not an integer literal. -/
def parsePattern? (tok : List Char) : Option (List Char × List Int) :=
  (segsInt? (splitOnPred isPatLetter tok)).map
    (fun pts => (tok.filter (fun c => !isDigitC c), pts))

/-- Parse one pattern token and insert it into the trie. -/
def insertPattern? (t : Trie) (tok : List Char) : Option Trie :=
  (parsePattern? tok).map (fun cp => t.insert cp.1 cp.2)

/-- Fold `insertPattern?` over a token list (the `__init__` pattern loop). -/
def buildTree? : Trie → List (List Char) → Option Trie
  | t, [] => some t
  | t, tok :: rest => (insertPattern? t tok).bind (buildTree? · rest)

/-- One exception entry: key `ex.replace('-','')`, value
`[0] + [int(h == '-') for h in re.split(r"[a-z]", ex)]`. -/
def exceptionEntry (tok : List Char) : List Char × List Int :=
  (tok.filter (· ≠ '-'),
   0 :: (splitOnPred isLowerAZ tok).map (fun h => if h = ['-'] then 1 else 0))

/-- The exception dict built by `__init__`'s exception loop. -/
def buildExceptions (toks : List (List Char)) : List (List Char × List Int) :=
  toks.foldl (fun d tok => assocUpsert d (exceptionEntry tok).1 (exceptionEntry tok).2) []

/-- The `Hyphenator` object's state after `__init__`. -/
structure Hyphenator where
  tree : Trie
  exceptions : List (List Char × List Int)

/-- `Hyphenator(patterns, exceptions)`: `none` when some pattern segment
fails `int(...)` (Python would raise `ValueError`). -/
def mkHyphenator? (patterns exceptions : String) : Option Hyphenator :=
  (buildTree? Trie.empty (pySplit patterns.data)).map
    (fun t => { tree := t, exceptions := buildExceptions (pySplit exceptions.data) })

/-- `points[k] = max(points[k], v)`: `none` when `k` is out of range
(Python `IndexError`). -/
def setMax? (pts : List Int) (k : Nat) (v : Int) : Option (List Int) :=
  if h : k < pts.length then some (pts.set k (max (pts.get ⟨k, h⟩) v)) else none

/-- `for j in range(len(p)): points[k+j] = max(points[k+j], p[j])`. -/
def combineAux? (pts : List Int) (k : Nat) : List Int → Option (List Int)
  | [] => some pts
  | v :: vs => (setMax? pts k v).bind (combineAux? · (k + 1) vs)

/-- The inner walk of the scan, from one start offset `i`: follow children
along the suffix, merging each terminal payload met into `pts` at base
offset `i`; stop silently at the first missing child. -/
def walkFrom? (t : Trie) (i : Nat) : List Char → List Int → Option (List Int)
  | [], pts => some pts
  | c :: cs, pts =>
    match t.find? c with
    | none => some pts
    | some t' =>
      match t'.payload with
      | none => walkFrom? t' i cs pts
      | some p => (combineAux? pts i p).bind (walkFrom? t' i cs)

/-- The outer loop of the scan: one inner walk per start offset. -/
def scanAux? (t : Trie) : Nat → List Char → List Int → Option (List Int)
  | _, [], pts => some pts
  | i, c :: cs, pts =>
    (walkFrom? t i (c :: cs) pts).bind (scanAux? t (i + 1) cs)

/-- The whole trie scan on the padded word: points start as
`[0] * (len(work)+1)`. -/
def scan? (t : Trie) (work : List Char) : Option (List Int) :=
  scanAux? t 0 work (List.replicate (work.length + 1) 0)

/-- `pieces[-1] += c`. -/
def appendToLast : List (List Char) → Char → List (List Char)
  | [], c => [[c]]
  | [l], c => [l ++ [c]]
  | l :: ls, c => l :: appendToLast ls c

/-- One iteration of the pieces loop: extend the last piece and, when the
weight is odd, start a new empty piece. -/
def addPair (pcs : List (List Char)) (c : Char) (p : Int) : List (List Char) :=
  let pcs' := appendToLast pcs c
  if p % 2 = 1 then pcs' ++ [[]] else pcs'

/-- `pieces = ['']; for c, p in zip(word, points[2:]): ...`. -/
def buildPieces (word : List Char) (pts : List Int) : List (List Char) :=
  (word.zip pts).foldl (fun pcs cp => addPair pcs cp.1 cp.2) [[]]

/-- `Hyphenator.hyphenate_word`: exception lookup on the lower-cased word,
otherwise the trie scan on `'.' + word.lower() + '.'`; then the parity
partition over `points[2:]`. -/
def hyphenateWord? (h : Hyphenator) (word : List Char) : Option (List (List Char)) :=
  let lw := word.map pyLower
  match assocFind? h.exceptions lw with
  | some pts => some (buildPieces word (pts.drop 2))
  | none =>
    (scan? h.tree ('.' :: (lw ++ ['.']))).map (fun pts => buildPieces word (pts.drop 2))

/-- `Hyphenator.hyphenate_word_as_string`: the pieces joined by `'-'`. -/
def hyphenateWordAsString? (h : Hyphenator) (word : List Char) : Option (List Char) :=
  (hyphenateWord? h word).map (fun ps => (ps.intersperse ['-']).flatten)

/-- The payload observed at `path` after inserting a token list on top of a
base observation: the last token whose letter path is `path` wins. -/
def chainPayload (toks : List (List Char)) (base : Option (List Int))
    (path : List Char) : Option (List Int) :=
  match toks with
  | [] => base
  | tok :: rest =>
    chainPayload rest
      (match parsePattern? tok with
       | some cp => if path = cp.1 then some cp.2 else base
       | none => base) path

/-- Effect on slot `m` of merging payload `p` at base offset `i`:
`max` with `p[m-i]` when that index is in `p`'s window, else unchanged. -/
def applyP (i m : Nat) (a : Int) (p : List Int) : Int :=
  if i ≤ m then
    match p[m - i]? with
    | some v => max a v
    | none => a
  else a

/-- The terminal payloads met by the inner walk along a suffix, in the
order visited (the walk stops at the first missing child). -/
def pathPayloads (t : Trie) : List Char → List (List Int)
  | [] => []
  | c :: cs =>
    match t.find? c with
    | none => []
    | some t' =>
      match t'.payload with
      | some p => p :: pathPayloads t' cs
      | none => pathPayloads t' cs

/-- All (start offset, payload) pairs processed by the outer loop, in
processing order. -/
def offsetsPayloads (t : Trie) : Nat → List Char → List (Nat × List Int)
  | _, [] => []
  | i, c :: cs =>
    (pathPayloads t (c :: cs)).map (fun p => (i, p)) ++ offsetsPayloads t (i + 1) cs

/-- All payloads reachable from this node are at most `n` longer than
their remaining path. -/
def PayloadLe (t : Trie) (n : Nat) : Prop :=
  ∀ path p, t.payloadAt path = some p → p.length ≤ n + path.length

/-- An exception token made only of lower-case ASCII letters and hyphens
(the grammar the spec gives for exception entries). -/
def AllowedExc (tok : List Char) : Prop :=
  ∀ c ∈ tok, isLowerAZ c = true ∨ c = '-'

instance (tok : List Char) : Decidable (AllowedExc tok) := by
  unfold AllowedExc
  infer_instance

/-- All terminal payloads found by following child links along (prefixes
of) a suffix of the padded word: the payload at the end of `suffix.take
(d+1)` for each depth `d+1` at which that path exists and is terminal.
Defined through `Trie.payloadAt` only, independently of the scanning
code. -/
def matchPayloads (t : Trie) (suffix : List Char) : List (List Int) :=
  (List.range suffix.length).filterMap (fun d => t.payloadAt (suffix.take (d + 1)))

/-- The contribution of one `(offset, payload)` match to slot `m`. -/
def slotContrib (m : Nat) (ip : Nat × List Int) : List Int :=
  if ip.1 ≤ m then
    match ip.2[m - ip.1]? with
    | some v => [v]
    | none => []
  else []

/-- All weights that any matched payload assigns to slot `m`, over every
start offset of the padded word. -/
def slotContribs (t : Trie) (work : List Char) (m : Nat) : List Int :=
  ((List.range work.length).flatMap (fun i =>
    (matchPayloads t (work.drop i)).map (fun p => (i, p)))).flatMap (slotContrib m)

/-- The spec's aggregated value for slot `m`: the maximum of all matched
weights for that slot, with default 0. -/
def specMax (t : Trie) (work : List Char) (m : Nat) : Int :=
  (slotContribs t work m).foldl max 0

/-- No two tokens of the list disagree about the weights of the same
letter path.  This is what "a set of patterns without true duplicates"
means operationally. -/
def PatAgree (toks : List (List Char)) : Prop :=
  ∀ a ∈ toks, ∀ b ∈ toks, ∀ cpa cpb, parsePattern? a = some cpa →
    parsePattern? b = some cpb → cpa.1 = cpb.1 → cpa.2 = cpb.2

/-! ## Character-class facts -/

theorem patLetter_not_digit (c : Char) (h : isPatLetter c = true) :
    isDigitC c = false := by
  cases hd : isDigitC c with
  | false => rfl
  | true =>
    exfalso
    simp only [isPatLetter, isLowerAZ, isDigitC, Bool.or_eq_true, Bool.and_eq_true,
      decide_eq_true_eq, or_assoc] at h hd
    rcases h with h | h | h | h | h | h | h | h | h <;> first
      | omega
      | (subst h; exact absurd hd (by decide))

/-! ## Lemmas about `splitOnPred` -/

theorem splitOnPred_ne_nil (q : Char → Bool) (l : List Char) :
    splitOnPred q l ≠ [] := by
  cases l with
  | nil => simp [splitOnPred]
  | cons c cs =>
    simp only [splitOnPred]
    split <;> split <;> simp

theorem splitOnPred_length (q : Char → Bool) (l : List Char) :
    (splitOnPred q l).length = l.countP q + 1 := by
  induction l with
  | nil => simp [splitOnPred]
  | cons c cs ih =>
    rcases h : splitOnPred q cs with _ | ⟨s, rest⟩
    · exact absurd h (splitOnPred_ne_nil q cs)
    · rw [h] at ih
      have ih' : rest.length + 1 = List.countP q cs + 1 := by simpa using ih
      simp only [splitOnPred, h]
      by_cases hq : q c = true <;> simp [hq, List.countP_cons] <;> omega

theorem splitOnPred_mem (q : Char → Bool) (l : List Char) :
    ∀ s ∈ splitOnPred q l, ∀ c ∈ s, c ∈ l ∧ q c = false := by
  induction l with
  | nil =>
    intro s hs c hc
    simp only [splitOnPred, List.mem_singleton] at hs
    subst hs; cases hc
  | cons a as ih =>
    intro s hs c hc
    rcases h : splitOnPred q as with _ | ⟨s', rest⟩
    · exact absurd h (splitOnPred_ne_nil q as)
    · simp only [splitOnPred, h] at hs
      by_cases hq : q a = true
      · rw [if_pos hq] at hs
        simp only [List.mem_cons] at hs
        rcases hs with hs | hs | hs
        · subst hs; cases hc
        · have := ih s (by rw [h]; exact hs ▸ List.mem_cons_self s' rest) c hc
          exact ⟨List.mem_cons_of_mem a this.1, this.2⟩
        · have := ih s (by rw [h]; exact List.mem_cons_of_mem s' hs) c hc
          exact ⟨List.mem_cons_of_mem a this.1, this.2⟩
      · rw [if_neg hq] at hs
        simp only [List.mem_cons] at hs
        rcases hs with hs | hs
        · subst hs
          simp only [List.mem_cons] at hc
          rcases hc with hc | hc
          · subst hc
            exact ⟨List.mem_cons_self c as, by simpa using hq⟩
          · have := ih s' (by rw [h]; exact List.mem_cons_self s' rest) c hc
            exact ⟨List.mem_cons_of_mem a this.1, this.2⟩
        · have := ih s (by rw [h]; exact List.mem_cons_of_mem s' hs) c hc
          exact ⟨List.mem_cons_of_mem a this.1, this.2⟩

/-! ## Lemmas about pattern parsing -/

theorem segInt?_of_digits (s : List Char) (h : ∀ c ∈ s, isDigitC c = true) :
    segInt? s = some ((natOfDigits s : Int)) := by
  cases s with
  | nil => simp [segInt?, natOfDigits]
  | cons c cs =>
    have hc : isDigitC c = true := h c (List.mem_cons_self c cs)
    have hall : (c :: cs).all isDigitC = true := by
      simp only [List.all_eq_true, decide_eq_true_eq]
      exact h
    rw [segInt?, if_neg (by simp)]
    unfold pyInt?
    split
    · rename_i rest heq
      injection heq with h1 _
      exact absurd hc (h1 ▸ by decide)
    · rename_i rest heq
      injection heq with h1 _
      exact absurd hc (h1 ▸ by decide)
    · rw [if_pos (by simp [hall])]

theorem segsInt?_length (segs : List (List Char)) (pts : List Int)
    (h : segsInt? segs = some pts) : pts.length = segs.length := by
  induction segs generalizing pts with
  | nil => simp [segsInt?] at h; simp [← h]
  | cons s rest ih =>
    simp only [segsInt?, Option.bind_eq_some, Option.map_eq_some'] at h
    obtain ⟨v, _, pts', h2, h3⟩ := h
    simp [← h3, ih pts' h2]

theorem segsInt?_get (segs : List (List Char)) (pts : List Int)
    (h : segsInt? segs = some pts) (j : Nat) (seg : List Char)
    (hj : segs[j]? = some seg) :
    ∃ v, segInt? seg = some v ∧ pts[j]? = some v := by
  induction segs generalizing pts j with
  | nil => simp at hj
  | cons s rest ih =>
    simp only [segsInt?, Option.bind_eq_some, Option.map_eq_some'] at h
    obtain ⟨v, h1, pts', h2, h3⟩ := h
    cases j with
    | zero =>
      simp only [List.getElem?_cons_zero, Option.some.injEq] at hj
      exact ⟨v, hj ▸ h1, by simp [← h3]⟩
    | succ j =>
      simp only [List.getElem?_cons_succ] at hj
      obtain ⟨w, hw1, hw2⟩ := ih pts' h2 j hj
      exact ⟨w, hw1, by simp [← h3, hw2]⟩

theorem segsInt?_of_digits (segs : List (List Char))
    (h : ∀ s ∈ segs, ∀ c ∈ s, isDigitC c = true) :
    ∃ pts, segsInt? segs = some pts := by
  induction segs with
  | nil => exact ⟨[], rfl⟩
  | cons s rest ih =>
    obtain ⟨pts', hp⟩ := ih (fun s hs => h s (List.mem_cons_of_mem _ hs))
    refine ⟨(natOfDigits s : Int) :: pts', ?_⟩
    simp [segsInt?, segInt?_of_digits s (h s (List.mem_cons_self s rest)), hp]

theorem countP_le_countP (l : List Char) (p q : Char → Bool)
    (h : ∀ c ∈ l, p c = true → q c = true) : l.countP p ≤ l.countP q := by
  induction l with
  | nil => simp
  | cons c cs ih =>
    have ih' := ih (fun a ha => h a (List.mem_cons_of_mem c ha))
    by_cases hp : p c = true
    · rw [List.countP_cons_of_pos _ _ hp,
        List.countP_cons_of_pos _ _ (h c (List.mem_cons_self c cs) hp)]
      omega
    · rw [List.countP_cons_of_neg _ _ hp]
      rcases hq : q c with _ | _
      · rw [List.countP_cons_of_neg _ _ (by simp [hq])]
        exact ih'
      · rw [List.countP_cons_of_pos _ _ hq]
        omega

theorem parsePattern?_points (tok chars : List Char) (pts : List Int)
    (h : parsePattern? tok = some (chars, pts)) :
    chars = tok.filter (fun c => !isDigitC c) ∧
      pts.length = tok.countP isPatLetter + 1 := by
  simp only [parsePattern?, Option.map_eq_some'] at h
  obtain ⟨pts', hm, heq⟩ := h
  have h1 := congrArg Prod.fst heq
  have h2 := congrArg Prod.snd heq
  simp only at h1 h2
  subst h1 h2
  exact ⟨rfl, by rw [segsInt?_length _ _ hm, splitOnPred_length]⟩

/-- Any successfully parsed pattern's point list is at most one longer
than its character path: the split counts only pattern letters, the path
all non-digits. -/
theorem parsePattern?_points_le (tok chars : List Char) (pts : List Int)
    (h : parsePattern? tok = some (chars, pts)) :
    pts.length ≤ chars.length + 1 := by
  obtain ⟨h1, h2⟩ := parsePattern?_points tok chars pts h
  have : tok.countP isPatLetter ≤ tok.countP (fun c => !isDigitC c) := by
    refine countP_le_countP tok _ _ (fun c _ hp => ?_)
    simp [patLetter_not_digit c hp]
  rw [h2, h1, ← List.countP_eq_length_filter]
  omega

/-! ## Lemmas about the trie -/

theorem assocFind?_upsert {α β : Type} [DecidableEq α] (l : List (α × β))
    (k : α) (v : β) (k' : α) :
    assocFind? (assocUpsert l k v) k' = if k = k' then some v else assocFind? l k' := by
  induction l with
  | nil => simp [assocUpsert, assocFind?]
  | cons ab rest ih =>
    obtain ⟨a, b⟩ := ab
    by_cases hak : a = k
    · subst hak
      simp only [assocUpsert, if_pos rfl, assocFind?]
      by_cases hak' : a = k' <;> simp [hak']
    · simp only [assocUpsert, if_neg hak, assocFind?]
      by_cases hak' : a = k'
      · subst hak'
        rw [if_pos rfl, if_neg (fun hk => hak hk.symm), if_pos rfl]
      · rw [if_neg hak', if_neg hak', ih]

theorem payloadAt_cons (pay : Option (List Int)) (ch : List (Char × Trie))
    (a : Char) (ps : List Char) :
    (Trie.mk pay ch).payloadAt (a :: ps) =
      (assocFind? ch a).bind (fun u => u.payloadAt ps) := by
  cases hf : assocFind? ch a <;>
    simp [Trie.payloadAt, Trie.findPath?, Trie.find?, Trie.children, hf]

theorem payloadAt_empty (path : List Char) : Trie.empty.payloadAt path = none := by
  cases path with
  | nil => rfl
  | cons a ps => simp [Trie.empty, payloadAt_cons, assocFind?]

/-- The decisive observation about insertion: it stores the points at the
inserted path and observes every other path unchanged. -/
theorem payloadAt_insert (t : Trie) (cs : List Char) (pts : List Int)
    (path : List Char) :
    (t.insert cs pts).payloadAt path =
      if path = cs then some pts else t.payloadAt path := by
  induction cs generalizing t path with
  | nil =>
    obtain ⟨pay, ch⟩ := t
    cases path with
    | nil => simp [Trie.insert, Trie.payloadAt, Trie.findPath?, Trie.payload]
    | cons a ps => simp [Trie.insert, payloadAt_cons]
  | cons c cs' ih =>
    obtain ⟨pay, ch⟩ := t
    cases path with
    | nil =>
      simp [Trie.insert, Trie.payloadAt, Trie.findPath?, Trie.payload]
    | cons a ps =>
      simp only [Trie.insert, payloadAt_cons, assocFind?_upsert]
      by_cases hac : c = a
      · subst hac
        rw [if_pos rfl, Option.some_bind, ih]
        by_cases hps : ps = cs'
        · subst hps; simp
        · rw [if_neg hps, if_neg (by simp [hps])]
          cases hf : assocFind? ch c <;> simp [hf, payloadAt_empty]
      · rw [if_neg hac, if_neg (by intro hh; injection hh with h1 _; exact hac h1.symm)]

/-! ## Characterizing the tree built from a token list -/



theorem buildTree?_payloadAt (toks : List (List Char)) (t T : Trie)
    (h : buildTree? t toks = some T) (path : List Char) :
    T.payloadAt path = chainPayload toks (t.payloadAt path) path := by
  induction toks generalizing t with
  | nil =>
    simp only [buildTree?, Option.some.injEq] at h
    subst h; rfl
  | cons tok rest ih =>
    simp only [buildTree?, insertPattern?, Option.map_eq_some', Option.bind_eq_some] at h
    obtain ⟨t1, ⟨cp, hcp, ht1⟩, hrest⟩ := h
    subst ht1
    rw [ih _ hrest, chainPayload, hcp, payloadAt_insert]

theorem chainPayload_le (toks : List (List Char)) (base : Option (List Int))
    (path : List Char)
    (hbase : ∀ q : List Int, base = some q → q.length ≤ path.length + 1)
    (p : List Int) (hp : chainPayload toks base path = some p) :
    p.length ≤ path.length + 1 := by
  induction toks generalizing base with
  | nil => exact hbase p hp
  | cons tok rest ih =>
    simp only [chainPayload] at hp
    rcases hparse : parsePattern? tok with _ | ⟨chars, pts⟩
    · simp only [hparse] at hp
      exact ih _ hbase hp
    · simp only [hparse] at hp
      by_cases hpath : path = chars
      · rw [if_pos hpath] at hp
        refine ih _ ?_ hp
        intro q hq
        injection hq with hq
        rw [← hq, hpath]
        exact parsePattern?_points_le tok chars pts hparse
      · rw [if_neg hpath] at hp
        exact ih _ hbase hp

/-- Every terminal payload in a tree built from scratch is at most one
longer than its path (used for totality of the scan). -/
theorem buildTree?_payload_le (toks : List (List Char)) (T : Trie)
    (h : buildTree? Trie.empty toks = some T) (path : List Char) (p : List Int)
    (hp : T.payloadAt path = some p) : p.length ≤ path.length + 1 := by
  rw [buildTree?_payloadAt toks _ T h path, payloadAt_empty] at hp
  exact chainPayload_le toks none path (fun q hq => by cases hq) p hp

/-! ## Pointwise characterization of the scan -/



theorem applyP_cons (k m : Nat) (a v : Int) (vs : List Int) :
    applyP (k + 1) m (if m = k then max a v else a) vs =
      applyP k m a (v :: vs) := by
  rcases Nat.lt_trichotomy m k with hmk | hmk | hmk
  · rw [if_neg (Nat.ne_of_lt hmk)]
    unfold applyP
    rw [if_neg (by omega), if_neg (by omega)]
  · subst hmk
    rw [if_pos rfl]
    unfold applyP
    rw [if_neg (by omega), if_pos (Nat.le_refl m)]
    simp [Nat.sub_self]
  · rw [if_neg (by omega)]
    unfold applyP
    rw [if_pos (by omega), if_pos (by omega)]
    have hix : m - k = (m - (k + 1)) + 1 := by omega
    rw [hix]
    simp

theorem setMax?_length (pts : List Int) (k : Nat) (v : Int) (pts' : List Int)
    (h : setMax? pts k v = some pts') : pts'.length = pts.length := by
  unfold setMax? at h
  split at h
  · injection h with h; subst h; simp
  · cases h

theorem setMax?_get (pts : List Int) (k : Nat) (v : Int) (pts' : List Int)
    (h : setMax? pts k v = some pts') (m : Nat) :
    pts'[m]? = (pts[m]?).map (fun a => if m = k then max a v else a) := by
  unfold setMax? at h
  split at h
  · rename_i hk
    injection h with h; subst h
    by_cases hmk : m = k
    · subst hmk
      simp [List.getElem?_set, hk, List.getElem?_eq_getElem hk]
    · rw [List.getElem?_set_ne (fun hh => hmk hh.symm)]
      cases pts[m]? <;> simp [hmk]
  · cases h

theorem combineAux?_length (p : List Int) (pts : List Int) (k : Nat)
    (pts' : List Int) (h : combineAux? pts k p = some pts') :
    pts'.length = pts.length := by
  induction p generalizing pts k with
  | nil => injection h with h; subst h; rfl
  | cons v vs ih =>
    simp only [combineAux?, Option.bind_eq_some] at h
    obtain ⟨pts1, h1, h2⟩ := h
    rw [ih pts1 (k + 1) h2, setMax?_length pts k v pts1 h1]

theorem combineAux?_get (p : List Int) (pts : List Int) (k : Nat)
    (pts' : List Int) (h : combineAux? pts k p = some pts') (m : Nat) :
    pts'[m]? = (pts[m]?).map (fun a => applyP k m a p) := by
  induction p generalizing pts k with
  | nil =>
    injection h with h; subst h
    cases hm : pts[m]? <;> simp [applyP, hm]
  | cons v vs ih =>
    simp only [combineAux?, Option.bind_eq_some] at h
    obtain ⟨pts1, h1, h2⟩ := h
    rw [ih pts1 (k + 1) h2, setMax?_get pts k v pts1 h1 m, Option.map_map]
    cases hm : pts[m]? with
    | none => rfl
    | some a => simp [Function.comp, applyP_cons]



theorem walkFrom?_length (suffix : List Char) (t : Trie) (i : Nat)
    (pts pts' : List Int) (h : walkFrom? t i suffix pts = some pts') :
    pts'.length = pts.length := by
  induction suffix generalizing t pts with
  | nil => injection h with h; subst h; rfl
  | cons c cs ih =>
    simp only [walkFrom?] at h
    rcases hf : t.find? c with _ | t'
    · simp only [hf] at h; injection h with h; subst h; rfl
    · simp only [hf] at h
      rcases hp : t'.payload with _ | p
      · simp only [hp] at h
        exact ih t' pts h
      · simp only [hp, Option.bind_eq_some] at h
        obtain ⟨pts1, h1, h2⟩ := h
        rw [ih t' pts1 h2, combineAux?_length p pts i pts1 h1]

theorem walkFrom?_get (suffix : List Char) (t : Trie) (i : Nat)
    (pts pts' : List Int) (h : walkFrom? t i suffix pts = some pts') (m : Nat) :
    pts'[m]? = (pts[m]?).map
      (fun a => (pathPayloads t suffix).foldl (fun b p => applyP i m b p) a) := by
  induction suffix generalizing t pts with
  | nil =>
    injection h with h; subst h
    cases hm : pts[m]? <;> simp [pathPayloads, hm]
  | cons c cs ih =>
    simp only [walkFrom?] at h
    rcases hf : t.find? c with _ | t'
    · simp only [hf] at h
      injection h with h; subst h
      cases hm : pts[m]? <;> simp [pathPayloads, hf, hm]
    · simp only [hf] at h
      rcases hp : t'.payload with _ | p
      · simp only [hp] at h
        rw [ih t' pts h]
        simp [pathPayloads, hf, hp]
      · simp only [hp, Option.bind_eq_some] at h
        obtain ⟨pts1, h1, h2⟩ := h
        rw [ih t' pts1 h2, combineAux?_get p pts i pts1 h1 m, Option.map_map]
        cases hm : pts[m]? <;> simp [pathPayloads, hf, hp, hm]



theorem scanAux?_length (suffix : List Char) (t : Trie) (i : Nat)
    (pts pts' : List Int) (h : scanAux? t i suffix pts = some pts') :
    pts'.length = pts.length := by
  induction suffix generalizing i pts with
  | nil => injection h with h; subst h; rfl
  | cons c cs ih =>
    simp only [scanAux?, Option.bind_eq_some] at h
    obtain ⟨pts1, h1, h2⟩ := h
    rw [ih (i + 1) pts1 h2, walkFrom?_length (c :: cs) t i pts pts1 h1]

theorem scanAux?_get (suffix : List Char) (t : Trie) (i : Nat)
    (pts pts' : List Int) (h : scanAux? t i suffix pts = some pts') (m : Nat) :
    pts'[m]? = (pts[m]?).map
      (fun a => (offsetsPayloads t i suffix).foldl
        (fun b ip => applyP ip.1 m b ip.2) a) := by
  induction suffix generalizing i pts with
  | nil =>
    injection h with h; subst h
    cases hm : pts[m]? <;> simp [offsetsPayloads, hm]
  | cons c cs ih =>
    simp only [scanAux?, Option.bind_eq_some] at h
    obtain ⟨pts1, h1, h2⟩ := h
    rw [ih (i + 1) pts1 h2, walkFrom?_get (c :: cs) t i pts pts1 h1 m, Option.map_map]
    cases hm : pts[m]? <;>
      simp [offsetsPayloads, List.foldl_append, List.foldl_map, hm]

theorem scan?_length (t : Trie) (work : List Char) (pts : List Int)
    (h : scan? t work = some pts) : pts.length = work.length + 1 := by
  rw [scanAux?_length work t 0 _ pts h, List.length_replicate]

theorem scan?_get (t : Trie) (work : List Char) (pts : List Int)
    (h : scan? t work = some pts) (m : Nat) (hm : m < work.length + 1) :
    pts[m]? = some ((offsetsPayloads t 0 work).foldl
      (fun b ip => applyP ip.1 m b ip.2) 0) := by
  rw [scanAux?_get work t 0 _ pts h m]
  rw [List.getElem?_replicate]
  simp [hm]

/-! ## Totality of the scan for trees built by the constructor -/



theorem payloadAt_cons' (t : Trie) (a : Char) (ps : List Char) :
    t.payloadAt (a :: ps) = (t.find? a).bind (fun u => u.payloadAt ps) := by
  obtain ⟨pay, ch⟩ := t
  exact payloadAt_cons pay ch a ps

theorem PayloadLe.child (t : Trie) (n : Nat) (hle : PayloadLe t n) (c : Char)
    (t' : Trie) (hf : t.find? c = some t') : PayloadLe t' (n + 1) := by
  intro path p hp
  have : t.payloadAt (c :: path) = some p := by
    rw [payloadAt_cons', hf, Option.some_bind, hp]
  have := hle (c :: path) p this
  simp only [List.length_cons] at this
  omega

theorem combineAux?_some (p : List Int) (pts : List Int) (i : Nat)
    (hle : i + p.length ≤ pts.length) :
    ∃ pts', combineAux? pts i p = some pts' := by
  induction p generalizing pts i with
  | nil => exact ⟨pts, rfl⟩
  | cons v vs ih =>
    have hi : i < pts.length := by simp at hle; omega
    have hset : setMax? pts i v = some (pts.set i (max (pts.get ⟨i, hi⟩) v)) := by
      rw [setMax?, dif_pos hi]
    obtain ⟨pts', hrec⟩ := ih (pts.set i (max (pts.get ⟨i, hi⟩) v)) (i + 1)
      (by simp at hle ⊢; omega)
    exact ⟨pts', by rw [combineAux?, hset, Option.some_bind, hrec]⟩

theorem walkFrom?_some (suffix : List Char) (t : Trie) (n i : Nat)
    (pts : List Int) (hle : PayloadLe t n)
    (hlen : i + n + suffix.length ≤ pts.length) :
    ∃ pts', walkFrom? t i suffix pts = some pts' := by
  induction suffix generalizing t n pts with
  | nil => exact ⟨pts, rfl⟩
  | cons c cs ih =>
    rcases hf : t.find? c with _ | t'
    · exact ⟨pts, by rw [walkFrom?, hf]⟩
    · have hle' : PayloadLe t' (n + 1) := PayloadLe.child t n hle c t' hf
      rcases hp : t'.payload with _ | p
      · obtain ⟨pts', hrec⟩ := ih t' (n + 1) pts hle'
          (by simp at hlen ⊢; omega)
        exact ⟨pts', by rw [walkFrom?, hf]; simp only [hp]; exact hrec⟩
      · have hplen : p.length ≤ n + 1 := by
          have : t'.payloadAt [] = some p := hp
          simpa using hle' [] p this
        obtain ⟨pts1, hcomb⟩ := combineAux?_some p pts i
          (by simp at hlen; omega)
        have hlen1 : pts1.length = pts.length :=
          combineAux?_length p pts i pts1 hcomb
        obtain ⟨pts', hrec⟩ := ih t' (n + 1) pts1 hle'
          (by simp at hlen; omega)
        refine ⟨pts', ?_⟩
        rw [walkFrom?, hf]
        simp only [hp, hcomb, Option.some_bind]
        exact hrec

theorem scanAux?_some (suffix : List Char) (t : Trie) (i : Nat)
    (pts : List Int) (hle : PayloadLe t 1)
    (hlen : i + 1 + suffix.length ≤ pts.length) :
    ∃ pts', scanAux? t i suffix pts = some pts' := by
  induction suffix generalizing i pts with
  | nil => exact ⟨pts, rfl⟩
  | cons c cs ih =>
    obtain ⟨pts1, hwalk⟩ := walkFrom?_some (c :: cs) t 1 i pts hle hlen
    have hlen1 : pts1.length = pts.length :=
      walkFrom?_length (c :: cs) t i pts pts1 hwalk
    obtain ⟨pts', hrec⟩ := ih (i + 1) pts1 (by simp at hlen ⊢; omega)
    exact ⟨pts', by rw [scanAux?, hwalk, Option.some_bind]; exact hrec⟩

theorem scan?_some (t : Trie) (work : List Char) (hle : PayloadLe t 1) :
    ∃ pts, scan? t work = some pts := by
  exact scanAux?_some work t 0 (List.replicate (work.length + 1) 0) hle
    (by simp; omega)

/-- A constructed Hyphenator's tree satisfies the payload bound. -/
theorem mkHyphenator?_payloadLe (patterns exceptions : String) (h : Hyphenator)
    (hmk : mkHyphenator? patterns exceptions = some h) : PayloadLe h.tree 1 := by
  simp only [mkHyphenator?, Option.map_eq_some'] at hmk
  obtain ⟨T, hT, hh⟩ := hmk
  intro path p hp
  have : h.tree = T := by rw [← hh]
  rw [this] at hp
  have := buildTree?_payload_le _ T hT path p hp
  omega

/-! ## Lemmas about the pieces loop -/

theorem appendToLast_flatten (pcs : List (List Char)) (c : Char) :
    (appendToLast pcs c).flatten = pcs.flatten ++ [c] := by
  induction pcs with
  | nil => simp [appendToLast]
  | cons l ls ih =>
    cases ls with
    | nil => simp [appendToLast]
    | cons l' ls' => simp [appendToLast, ih]

theorem addPair_flatten (pcs : List (List Char)) (c : Char) (p : Int) :
    (addPair pcs c p).flatten = pcs.flatten ++ [c] := by
  unfold addPair
  split <;> simp [appendToLast_flatten]

theorem foldl_addPair_flatten (pairs : List (Char × Int)) (pcs : List (List Char)) :
    (pairs.foldl (fun pcs cp => addPair pcs cp.1 cp.2) pcs).flatten =
      pcs.flatten ++ pairs.map Prod.fst := by
  induction pairs generalizing pcs with
  | nil => simp
  | cons cp rest ih =>
    simp only [List.foldl_cons, List.map_cons]
    rw [ih, addPair_flatten]
    simp

/-- Round trip at the pieces level: when the point list is long enough,
concatenating the pieces gives back the word. -/
theorem buildPieces_flatten (word : List Char) (pts : List Int)
    (h : word.length ≤ pts.length) :
    (buildPieces word pts).flatten = word := by
  rw [buildPieces, foldl_addPair_flatten]
  simp [List.map_fst_zip word pts h]

theorem appendToLast_ne_nil (pcs : List (List Char)) (c : Char) :
    appendToLast pcs c ≠ [] := by
  induction pcs with
  | nil => simp [appendToLast]
  | cons l ls ih =>
    cases ls with
    | nil => simp [appendToLast]
    | cons l' ls' => simp [appendToLast]

theorem addPair_ne_nil (pcs : List (List Char)) (c : Char) (p : Int) :
    addPair pcs c p ≠ [] := by
  unfold addPair
  split
  · simp
  · exact appendToLast_ne_nil pcs c

theorem foldl_addPair_ne_nil (pairs : List (Char × Int)) (pcs : List (List Char))
    (h : pcs ≠ []) :
    pairs.foldl (fun pcs cp => addPair pcs cp.1 cp.2) pcs ≠ [] := by
  induction pairs generalizing pcs with
  | nil => exact h
  | cons cp rest ih =>
    exact ih (addPair pcs cp.1 cp.2) (addPair_ne_nil pcs cp.1 cp.2)

theorem buildPieces_ne_nil (word : List Char) (pts : List Int) :
    buildPieces word pts ≠ [] :=
  foldl_addPair_ne_nil (word.zip pts) [[]] (by simp)

/-- When every paired weight is even the loop never opens a new piece. -/
theorem foldl_addPair_even (pairs : List (Char × Int)) (acc : List Char)
    (h : ∀ cp ∈ pairs, cp.2 % 2 ≠ 1) :
    pairs.foldl (fun pcs cp => addPair pcs cp.1 cp.2) [acc] =
      [acc ++ pairs.map Prod.fst] := by
  induction pairs generalizing acc with
  | nil => simp
  | cons cp rest ih =>
    have hcp : cp.2 % 2 ≠ 1 := h cp (List.mem_cons_self cp rest)
    simp only [List.foldl_cons, List.map_cons]
    rw [show addPair [acc] cp.1 cp.2 = [acc ++ [cp.1]] by
      unfold addPair appendToLast
      rw [if_neg hcp]]
    rw [ih (acc ++ [cp.1]) (fun x hx => h x (List.mem_cons_of_mem cp hx))]
    simp

theorem buildPieces_all_even (word : List Char) (pts : List Int)
    (hlen : word.length ≤ pts.length)
    (h : ∀ cp ∈ word.zip pts, cp.2 % 2 ≠ 1) :
    buildPieces word pts = [word] := by
  rw [buildPieces, foldl_addPair_even (word.zip pts) [] h]
  simp [List.map_fst_zip word pts hlen]

/-! ## Lemmas about the exception map -/



theorem allowed_count (tok : List Char) (h : AllowedExc tok) :
    tok.countP isLowerAZ = (tok.filter (· ≠ '-')).length := by
  rw [← List.countP_eq_length_filter]
  induction tok with
  | nil => simp
  | cons c cs ih =>
    have hc := h c (List.mem_cons_self c cs)
    have ih' := ih (fun a ha => h a (List.mem_cons_of_mem c ha))
    rcases hc with hc | hc
    · have hcne : (decide (c ≠ '-')) = true := by
        simp only [decide_eq_true_eq]
        intro hcc
        subst hcc
        exact absurd hc (by decide)
      simp only [decide_eq_true_eq] at hcne
      simp [List.countP_cons, hc, hcne, ih']
    · subst hc
      simp [List.countP_cons, ih', (by decide : isLowerAZ '-' = false)]

/-- Shape of a single well-formed exception entry: one leading 0 sentinel,
then one slot per letter boundary, marked 1 exactly when the gap at that
boundary is a single hyphen. -/
theorem exceptionEntry_shape (tok : List Char) (h : AllowedExc tok) :
    (exceptionEntry tok).1 = tok.filter (· ≠ '-') ∧
    (exceptionEntry tok).2.length = (tok.filter (· ≠ '-')).length + 2 ∧
    (exceptionEntry tok).2[0]? = some 0 ∧
    (∀ i seg, (splitOnPred isLowerAZ tok)[i]? = some seg →
      (exceptionEntry tok).2[i + 1]? = some (if seg = ['-'] then (1 : Int) else 0)) := by
  refine ⟨rfl, ?_, by simp [exceptionEntry], ?_⟩
  · simp only [exceptionEntry, List.length_cons, List.length_map]
    rw [splitOnPred_length, allowed_count tok h]
  · intro i seg hseg
    simp only [exceptionEntry, List.getElem?_cons_succ, List.getElem?_map, hseg,
      Option.map_some']

/-- Persistence through further insertions: once a key is present, it
stays present; its final value comes from one of the later tokens or is
the original. -/
theorem excFold_persist (toks : List (List Char)) (d : List (List Char × List Int))
    (k : List Char) (v0 : List Int) (h : assocFind? d k = some v0) :
    ∃ v, assocFind?
        (toks.foldl (fun d tok =>
          assocUpsert d (exceptionEntry tok).1 (exceptionEntry tok).2) d) k = some v ∧
      ((∃ tok ∈ toks, exceptionEntry tok = (k, v)) ∨ v = v0) := by
  induction toks generalizing d v0 with
  | nil => exact ⟨v0, h, Or.inr rfl⟩
  | cons tok rest ih =>
    simp only [List.foldl_cons]
    by_cases hk : (exceptionEntry tok).1 = k
    · have hfind : assocFind? (assocUpsert d (exceptionEntry tok).1 (exceptionEntry tok).2) k
          = some (exceptionEntry tok).2 := by
        rw [assocFind?_upsert, if_pos hk]
      obtain ⟨v, hv, hcase⟩ := ih _ _ hfind
      refine ⟨v, hv, ?_⟩
      rcases hcase with hcase | hcase
      · obtain ⟨tok', htok', he⟩ := hcase
        exact Or.inl ⟨tok', List.mem_cons_of_mem tok htok', he⟩
      · subst hcase
        exact Or.inl ⟨tok, List.mem_cons_self tok rest, by rw [← hk]⟩
    · have hfind : assocFind? (assocUpsert d (exceptionEntry tok).1 (exceptionEntry tok).2) k
          = some v0 := by
        rw [assocFind?_upsert, if_neg hk, h]
      obtain ⟨v, hv, hcase⟩ := ih _ _ hfind
      refine ⟨v, hv, ?_⟩
      rcases hcase with hcase | hcase
      · obtain ⟨tok', htok', he⟩ := hcase
        exact Or.inl ⟨tok', List.mem_cons_of_mem tok htok', he⟩
      · exact Or.inr hcase

/-- Every binding in the built exception map is the entry of one of the
tokens. -/
theorem excFold_complete (toks : List (List Char)) (d : List (List Char × List Int))
    (k : List Char) (v : List Int)
    (h : assocFind?
        (toks.foldl (fun d tok =>
          assocUpsert d (exceptionEntry tok).1 (exceptionEntry tok).2) d) k = some v) :
    (∃ tok ∈ toks, exceptionEntry tok = (k, v)) ∨ assocFind? d k = some v := by
  induction toks generalizing d with
  | nil => exact Or.inr h
  | cons tok rest ih =>
    simp only [List.foldl_cons] at h
    rcases ih _ h with hcase | hcase
    · obtain ⟨tok', htok', he⟩ := hcase
      exact Or.inl ⟨tok', List.mem_cons_of_mem tok htok', he⟩
    · rw [assocFind?_upsert] at hcase
      by_cases hk : (exceptionEntry tok).1 = k
      · rw [if_pos hk] at hcase
        injection hcase with hcase
        exact Or.inl ⟨tok, List.mem_cons_self tok rest,
          by rw [← hk, ← hcase]⟩
      · rw [if_neg hk] at hcase
        exact Or.inr hcase

theorem buildExceptions_complete (toks : List (List Char)) (k : List Char)
    (v : List Int) (h : assocFind? (buildExceptions toks) k = some v) :
    ∃ tok ∈ toks, exceptionEntry tok = (k, v) := by
  rcases excFold_complete toks [] k v h with hcase | hcase
  · exact hcase
  · cases hcase

theorem excFold_lookup (toks : List (List Char)) (d : List (List Char × List Int))
    (tok : List Char) (htok : tok ∈ toks) :
    ∃ tok' ∈ toks, (exceptionEntry tok').1 = (exceptionEntry tok).1 ∧
      assocFind?
        (toks.foldl (fun d tok =>
          assocUpsert d (exceptionEntry tok).1 (exceptionEntry tok).2) d)
        (exceptionEntry tok).1 = some (exceptionEntry tok').2 := by
  induction toks generalizing d tok with
  | nil => cases htok
  | cons tok0 rest ih =>
    simp only [List.foldl_cons]
    rcases List.mem_cons.mp htok with heq | hmem
    · subst heq
      have hfind : assocFind?
          (assocUpsert d (exceptionEntry tok).1 (exceptionEntry tok).2)
          (exceptionEntry tok).1 = some (exceptionEntry tok).2 := by
        rw [assocFind?_upsert, if_pos rfl]
      obtain ⟨v, hv, hcase⟩ := excFold_persist rest _ _ _ hfind
      rcases hcase with ⟨tok', htok', he⟩ | hcase
      · refine ⟨tok', List.mem_cons_of_mem tok htok', ?_, ?_⟩
        · rw [he]
        · rw [hv, he]
      · subst hcase
        exact ⟨tok, List.mem_cons_self tok rest, rfl, hv⟩
    · obtain ⟨tok', htok', hkey, hfind⟩ := ih _ tok hmem
      exact ⟨tok', List.mem_cons_of_mem tok0 htok', hkey, hfind⟩

theorem buildExceptions_lookup (toks : List (List Char)) (tok : List Char)
    (htok : tok ∈ toks) :
    ∃ tok' ∈ toks, (exceptionEntry tok').1 = (exceptionEntry tok).1 ∧
      assocFind? (buildExceptions toks) (exceptionEntry tok).1 =
        some (exceptionEntry tok').2 :=
  excFold_lookup toks [] tok htok

/-! ## Unfolding `hyphenate_word` -/

theorem hyphenateWord?_exc (h : Hyphenator) (word : List Char) (pts : List Int)
    (hfind : assocFind? h.exceptions (word.map pyLower) = some pts) :
    hyphenateWord? h word = some (buildPieces word (pts.drop 2)) := by
  simp only [hyphenateWord?, hfind]

theorem hyphenateWord?_noexc (h : Hyphenator) (word : List Char)
    (hfind : assocFind? h.exceptions (word.map pyLower) = none) :
    hyphenateWord? h word =
      (scan? h.tree ('.' :: (word.map pyLower ++ ['.']))).map
        (fun pts => buildPieces word (pts.drop 2)) := by
  simp only [hyphenateWord?, hfind]

theorem mkHyphenator?_parts (patterns exceptions : String) (h : Hyphenator)
    (hmk : mkHyphenator? patterns exceptions = some h) :
    buildTree? Trie.empty (pySplit patterns.data) = some h.tree ∧
    h.exceptions = buildExceptions (pySplit exceptions.data) := by
  simp only [mkHyphenator?, Option.map_eq_some'] at hmk
  obtain ⟨T, hT, hh⟩ := hmk
  refine ⟨?_, ?_⟩
  · rw [← hh]
    exact hT
  · rw [← hh]

/-- Core of the round-trip property: any successful result of
`hyphenate_word` whose exception tokens follow the documented grammar
(lower-case letters and hyphens) concatenates back to the input word. -/
theorem roundtrip_core (pats exc : String) (h : Hyphenator)
    (hmk : mkHyphenator? pats exc = some h)
    (hexc : ∀ tok ∈ pySplit exc.data, AllowedExc tok)
    (word : List Char) (res : List (List Char))
    (hres : hyphenateWord? h word = some res) :
    res.flatten = word := by
  obtain ⟨hT, hE⟩ := mkHyphenator?_parts pats exc h hmk
  rcases hfind : assocFind? h.exceptions (word.map pyLower) with _ | pts
  · rw [hyphenateWord?_noexc h word hfind, Option.map_eq_some'] at hres
    obtain ⟨pts, hscan, hres⟩ := hres
    subst hres
    have hlen := scan?_length h.tree _ pts hscan
    refine buildPieces_flatten word (pts.drop 2) ?_
    simp only [List.length_drop, hlen, List.length_cons, List.length_append,
      List.length_map, List.length_singleton]
    omega
  · rw [hyphenateWord?_exc h word pts hfind] at hres
    injection hres with hres
    subst hres
    rw [hE] at hfind
    obtain ⟨tok, htok, hentry⟩ := buildExceptions_complete _ _ _ hfind
    have hshape := exceptionEntry_shape tok (hexc tok htok)
    have hkey : (exceptionEntry tok).1 = word.map pyLower :=
      congrArg Prod.fst hentry
    have hval : (exceptionEntry tok).2 = pts := congrArg Prod.snd hentry
    refine buildPieces_flatten word (pts.drop 2) ?_
    have hlen : pts.length = (word.map pyLower).length + 2 := by
      rw [← hval, hshape.2.1, ← hshape.1, hkey]
    simp only [List.length_drop, hlen, List.length_map]
    omega

theorem hyphenateWord?_total (pats exc : String) (h : Hyphenator)
    (hmk : mkHyphenator? pats exc = some h) (word : List Char) :
    ∃ res, hyphenateWord? h word = some res := by
  rcases hfind : assocFind? h.exceptions (word.map pyLower) with _ | pts
  · obtain ⟨pts, hscan⟩ := scan?_some h.tree ('.' :: (word.map pyLower ++ ['.']))
      (mkHyphenator?_payloadLe pats exc h hmk)
    refine ⟨buildPieces word (pts.drop 2), ?_⟩
    rw [hyphenateWord?_noexc h word hfind, hscan]
    rfl
  · exact ⟨_, hyphenateWord?_exc h word pts hfind⟩

theorem buildPieces_nil (pts : List Int) : buildPieces [] pts = [[]] := rfl

/-! ## The spec-level description of the scan: pointwise maximum over all
pattern payloads found along the padded word -/



theorem pathPayloads_eq_matchPayloads (t : Trie) (suffix : List Char) :
    pathPayloads t suffix = matchPayloads t suffix := by
  induction suffix generalizing t with
  | nil => simp [pathPayloads, matchPayloads]
  | cons c cs ih =>
    unfold matchPayloads
    simp only [List.length_cons, List.range_succ_eq_map, List.filterMap_cons,
      List.filterMap_map]
    rcases hf : t.find? c with _ | t'
    · have hall : ∀ d : Nat, t.payloadAt ((c :: cs).take (d + 1)) = none := by
        intro d
        rw [List.take_succ_cons, payloadAt_cons', hf, Option.none_bind]
      simp only [pathPayloads, hf]
      rw [show t.payloadAt ((c :: cs).take (0 + 1)) = none from hall 0]
      have : (fun d => t.payloadAt ((c :: cs).take (Nat.succ d + 1))) =
          (fun _ : Nat => (none : Option (List Int))) := funext (fun d => hall _)
      rw [show ((fun d => t.payloadAt ((c :: cs).take (d + 1))) ∘ Nat.succ) =
          (fun _ : Nat => (none : Option (List Int))) from funext (fun d => hall _)]
      simp
  -- ...
    · have h0 : t.payloadAt ((c :: cs).take (0 + 1)) = t'.payload := by
        rw [List.take_succ_cons, List.take_zero, payloadAt_cons', hf,
          Option.some_bind]
        rfl
      have hsucc : ((fun d => t.payloadAt ((c :: cs).take (d + 1))) ∘ Nat.succ) =
          (fun d => t'.payloadAt (cs.take (d + 1))) := by
        funext d
        simp only [Function.comp_apply, List.take_succ_cons, payloadAt_cons', hf,
          Option.some_bind]
      rw [h0, hsucc]
      unfold pathPayloads
      rw [hf]
      rcases hp : t'.payload with _ | p <;>
        simp [hp, ih t', matchPayloads]



theorem applyP_eq_foldl_slotContrib (i m : Nat) (a : Int) (p : List Int) :
    applyP i m a p = (slotContrib m (i, p)).foldl max a := by
  unfold applyP slotContrib
  by_cases him : i ≤ m
  · rw [if_pos him, if_pos him]
    rcases hv : p[m - i]? with _ | v <;> simp
  · rw [if_neg him, if_neg him]
    rfl

theorem foldl_applyP_eq (l : List (Nat × List Int)) (a : Int) (m : Nat) :
    l.foldl (fun b ip => applyP ip.1 m b ip.2) a =
      (l.flatMap (slotContrib m)).foldl max a := by
  induction l generalizing a with
  | nil => rfl
  | cons ip rest ih =>
    rw [List.foldl_cons, List.flatMap_cons, List.foldl_append, ih,
      applyP_eq_foldl_slotContrib]

theorem offsetsPayloads_eq (suffix : List Char) (t : Trie) (i : Nat) :
    offsetsPayloads t i suffix =
      (List.range suffix.length).flatMap (fun d =>
        (matchPayloads t (suffix.drop d)).map (fun p => (i + d, p))) := by
  induction suffix generalizing i with
  | nil => simp [offsetsPayloads]
  | cons c cs ih =>
    simp only [offsetsPayloads, List.length_cons, List.range_succ_eq_map,
      List.flatMap_cons, List.flatMap_map]
    congr 1
    · rw [pathPayloads_eq_matchPayloads]
      simp
    · rw [ih (i + 1)]
      congr 1
      funext d
      simp only [Function.comp_apply, List.drop_succ_cons]
      congr 1
      funext p
      congr 1
      omega

/-- The aggregated slot values produced by the scan are exactly the
spec's pointwise maxima. -/
theorem scan?_eq_specMax (t : Trie) (work : List Char) (pts : List Int)
    (h : scan? t work = some pts) (m : Nat) (hm : m < work.length + 1) :
    pts[m]? = some (specMax t work m) := by
  rw [scan?_get t work pts h m hm, foldl_applyP_eq]
  unfold specMax slotContribs
  rw [offsetsPayloads_eq work t 0]
  have harg : (fun d => List.map (fun p => ((0 : Nat) + d, p))
        (matchPayloads t (List.drop d work)))
      = (fun i => List.map (fun p => (i, p)) (matchPayloads t (List.drop i work))) := by
    funext d
    simp
  rw [harg]

/-! ## Insertion-order independence (up to duplicate letter paths) -/



theorem chainPayload_none (toks : List (List Char)) (base : Option (List Int))
    (path : List Char) (h : chainPayload toks base path = none) :
    base = none ∧ ∀ tok ∈ toks, ∀ cp, parsePattern? tok = some cp → cp.1 ≠ path := by
  induction toks generalizing base with
  | nil => exact ⟨h, by simp⟩
  | cons tok rest ih =>
    simp only [chainPayload] at h
    rcases hparse : parsePattern? tok with _ | cp
    · simp only [hparse] at h
      obtain ⟨hbase, hrest⟩ := ih base h
      refine ⟨hbase, ?_⟩
      intro tok' htok' cp' hcp'
      rcases List.mem_cons.mp htok' with heq | hmem
      · subst heq
        rw [hparse] at hcp'
        cases hcp'
      · exact hrest tok' hmem cp' hcp'
    · simp only [hparse] at h
      obtain ⟨hbase, hrest⟩ := ih _ h
      by_cases hpath : path = cp.1
      · rw [if_pos hpath] at hbase
        cases hbase
      · rw [if_neg hpath] at hbase
        refine ⟨hbase, ?_⟩
        intro tok' htok' cp' hcp'
        rcases List.mem_cons.mp htok' with heq | hmem
        · subst heq
          rw [hparse] at hcp'
          injection hcp' with hcp'
          subst hcp'
          exact fun hh => hpath hh.symm
        · exact hrest tok' hmem cp' hcp'

theorem chainPayload_some (toks : List (List Char)) (base : Option (List Int))
    (path : List Char) (p : List Int) (h : chainPayload toks base path = some p) :
    (∃ tok ∈ toks, ∃ cp, parsePattern? tok = some cp ∧ cp.1 = path ∧ cp.2 = p) ∨
      base = some p := by
  induction toks generalizing base with
  | nil => exact Or.inr h
  | cons tok rest ih =>
    simp only [chainPayload] at h
    rcases hparse : parsePattern? tok with _ | cp
    · simp only [hparse] at h
      rcases ih base h with ⟨tok', htok', hx⟩ | hbase
      · exact Or.inl ⟨tok', List.mem_cons_of_mem tok htok', hx⟩
      · exact Or.inr hbase
    · simp only [hparse] at h
      rcases ih _ h with ⟨tok', htok', hx⟩ | hbase
      · exact Or.inl ⟨tok', List.mem_cons_of_mem tok htok', hx⟩
      · by_cases hpath : path = cp.1
        · rw [if_pos hpath] at hbase
          injection hbase with hbase
          exact Or.inl ⟨tok, List.mem_cons_self tok rest, cp, hparse,
            hpath.symm, hbase⟩
        · rw [if_neg hpath] at hbase
          exact Or.inr hbase

theorem buildTree?_perm_payloadAt (toks1 toks2 : List (List Char))
    (hperm : toks1.Perm toks2) (hagree : PatAgree toks1) (T1 T2 : Trie)
    (h1 : buildTree? Trie.empty toks1 = some T1)
    (h2 : buildTree? Trie.empty toks2 = some T2) (path : List Char) :
    T1.payloadAt path = T2.payloadAt path := by
  rw [buildTree?_payloadAt toks1 _ T1 h1 path, payloadAt_empty,
    buildTree?_payloadAt toks2 _ T2 h2 path, payloadAt_empty]
  rcases hc1 : chainPayload toks1 none path with _ | p <;>
    rcases hc2 : chainPayload toks2 none path with _ | q
  · rfl
  · obtain ⟨-, hnone⟩ := chainPayload_none toks1 none path hc1
    rcases chainPayload_some toks2 none path q hc2 with
      ⟨tok, htok, cp, hcp, hcp1, -⟩ | hfalse
    · exact absurd hcp1 (hnone tok (hperm.mem_iff.mpr htok) cp hcp)
    · cases hfalse
  · obtain ⟨-, hnone⟩ := chainPayload_none toks2 none path hc2
    rcases chainPayload_some toks1 none path p hc1 with
      ⟨tok, htok, cp, hcp, hcp1, -⟩ | hfalse
    · exact absurd hcp1 (hnone tok (hperm.mem_iff.mp htok) cp hcp)
    · cases hfalse
  · rcases chainPayload_some toks1 none path p hc1 with
      ⟨tok, htok, cp, hcp, hcp1, hcp2⟩ | hfalse
    · rcases chainPayload_some toks2 none path q hc2 with
        ⟨tok', htok', cp', hcp', hcp1', hcp2'⟩ | hfalse'
      · have := hagree tok htok tok' (hperm.mem_iff.mpr htok') cp cp' hcp hcp'
          (by rw [hcp1, hcp1'])
        rw [← hcp2, ← hcp2', this]
      · cases hfalse'
    · cases hfalse

theorem specMax_congr (T1 T2 : Trie)
    (hpa : ∀ path, T1.payloadAt path = T2.payloadAt path)
    (work : List Char) (m : Nat) :
    specMax T1 work m = specMax T2 work m := by
  have hmp : ∀ suffix, matchPayloads T1 suffix = matchPayloads T2 suffix := by
    intro suffix
    unfold matchPayloads
    congr 1
    funext d
    exact hpa _
  unfold specMax slotContribs
  have harg : (fun i => List.map (fun p => (i, p)) (matchPayloads T1 (List.drop i work)))
      = (fun i => List.map (fun p => (i, p)) (matchPayloads T2 (List.drop i work))) := by
    funext i
    rw [hmp]
  rw [harg]

theorem scan?_congr (T1 T2 : Trie)
    (hpa : ∀ path, T1.payloadAt path = T2.payloadAt path)
    (hle1 : PayloadLe T1 1) (hle2 : PayloadLe T2 1) (work : List Char) :
    scan? T1 work = scan? T2 work := by
  obtain ⟨pts1, h1⟩ := scan?_some T1 work hle1
  obtain ⟨pts2, h2⟩ := scan?_some T2 work hle2
  rw [h1, h2]
  have hlen1 := scan?_length _ _ _ h1
  have hlen2 := scan?_length _ _ _ h2
  congr 1
  apply List.ext_getElem (by omega)
  intro n hn1 hn2
  have e1 := scan?_eq_specMax T1 work pts1 h1 n (by omega)
  have e2 := scan?_eq_specMax T2 work pts2 h2 n (by omega)
  rw [List.getElem?_eq_getElem hn1] at e1
  rw [List.getElem?_eq_getElem hn2] at e2
  injection e1 with e1
  injection e2 with e2
  rw [e1, e2, specMax_congr T1 T2 hpa work n]

theorem buildTree?_payloadLe (toks : List (List Char)) (T : Trie)
    (h : buildTree? Trie.empty toks = some T) : PayloadLe T 1 := by
  intro path p hp
  have := buildTree?_payload_le toks T h path p hp
  omega

/-! ## The claims -/

/-- C1, counterexample: the round trip is NOT universal over all
exceptions strings.  With exceptions `"a1"` (a token outside the
documented letters-and-hyphens grammar), the stored weight vector for key
`"a1"` is too short, `zip` truncates, and `hyphenate_word("a1")` returns
`["a"]`, whose concatenation is `"a"`, not `"a1"`. -/
theorem C1_counterexample :
    ((mkHyphenator? "" "a1").bind fun h => hyphenateWord? h ['a', '1'])
        = some [['a']] ∧
      ([['a']] : List (List Char)).flatten ≠ ['a', '1'] := by
  exact ⟨rfl, by decide⟩

/-- C1, amended: for every Hyphenator built from any patterns string and
an exceptions string whose tokens consist only of lower-case ASCII
letters and hyphens, and every word, concatenating the pieces returned by
`hyphenate_word` reproduces the word exactly, case preserved. -/
theorem C1_roundtrip (pats exc : String) (h : Hyphenator)
    (hmk : mkHyphenator? pats exc = some h)
    (hexc : ∀ tok ∈ pySplit exc.data, AllowedExc tok)
    (word : List Char) (res : List (List Char))
    (hres : hyphenateWord? h word = some res) :
    res.flatten = word :=
  roundtrip_core pats exc h hmk hexc word res hres

/-- C1, witness: the round-trip theorem applied to the Hyphenator with
exception `"a-b"` and the word `"ab"`. -/
theorem C1_roundtrip_witness :
    ([['a'], ['b']] : List (List Char)).flatten = ['a', 'b'] :=
  C1_roundtrip "" "a-b" ⟨Trie.mk none [], [(['a', 'b'], [0, 0, 1, 0])]⟩
    (by rfl) (by decide) ['a', 'b'] [['a'], ['b']] (by rfl)

/-- C2: when the lower-cased word is a key of the exception map the trie
is never consulted (the result does not depend on the tree at all); in
particular with exception `"as-so-ciate"` registered,
`hyphenate_word("associate")` is `["as", "so", "ciate"]` whatever the
trie is. -/
theorem C2_exception_precedence :
    (∀ (t1 t2 : Trie) (exc : List (List Char × List Int)) (word : List Char)
      (pts : List Int),
      assocFind? exc (word.map pyLower) = some pts →
      hyphenateWord? ⟨t1, exc⟩ word = hyphenateWord? ⟨t2, exc⟩ word) ∧
    (∀ t : Trie,
      hyphenateWord? ⟨t, buildExceptions (pySplit ("as-so-ciate".data))⟩
          ("associate".data)
        = some [['a', 's'], ['s', 'o'], ['c', 'i', 'a', 't', 'e']]) := by
  constructor
  · intro t1 t2 exc word pts hfind
    rw [hyphenateWord?_exc ⟨t1, exc⟩ word pts hfind,
      hyphenateWord?_exc ⟨t2, exc⟩ word pts hfind]
  · intro t
    rw [hyphenateWord?_exc
      ⟨t, buildExceptions (pySplit ("as-so-ciate".data))⟩ ("associate".data)
      [0, 0, 0, 1, 0, 1, 0, 0, 0, 0, 0] (by rfl)]
    rfl

/-- C2, witness: the tree-independence half applied with two different
concrete trees whose scans would disagree on `"a"`. -/
theorem C2_exception_precedence_witness :
    hyphenateWord?
        ⟨Trie.mk none [('a', Trie.mk (some [0, 9, 0]) [])], [(['a'], [0, 0, 1])]⟩
        ['a']
      = hyphenateWord? ⟨Trie.mk none [], [(['a'], [0, 0, 1])]⟩ ['a'] :=
  C2_exception_precedence.1 (Trie.mk none [('a', Trie.mk (some [0, 9, 0]) [])])
    (Trie.mk none []) [(['a'], [0, 0, 1])] ['a'] [0, 0, 1] (by rfl)

/-- C10: pieces can be empty.  With the single pattern `"a1."` the slot
after the final `a` aggregates to 1 (odd), so `hyphenate_word("a")`
returns `["a", ""]` — a trailing empty piece, `hyphenate_word_as_string`
ends in a hyphen — while concatenation still reproduces the word. -/
theorem C10_empty_piece :
    ((mkHyphenator? "a1." "").bind fun h => hyphenateWord? h ['a'])
        = some [['a'], []] ∧
      ((mkHyphenator? "a1." "").bind fun h => hyphenateWordAsString? h ['a'])
        = some ['a', '-'] ∧
      ((mkHyphenator? "a1." "").bind fun h => scan? h.tree ['.', 'a', '.'])
        = some [0, 0, 1, 0] ∧
      ([['a'], []] : List (List Char)).flatten = ['a'] := by
  exact ⟨rfl, rfl, rfl, rfl⟩

/-- C3: every slot of the aggregated vector produced by the trie scan is
the pointwise maximum, over all pattern payloads found at terminal nodes
reached from every start offset of the padded word, of the payload's
weight for that slot (default 0); in particular with the overlapping
patterns `"ab1c"` (weight 1) and `"b2c"` (weight 2) targeting the same
slot of `".abc."`, that slot resolves to 2. -/
theorem C3_pointwise_max :
    (∀ (t : Trie) (work : List Char) (pts : List Int),
      scan? t work = some pts →
      ∀ m (hm : m < pts.length), pts.get ⟨m, hm⟩ = specMax t work m) ∧
    ((mkHyphenator? "ab1c b2c" "").bind
        (fun h => scan? h.tree ('.' :: ("abc".data ++ ['.']))))
      = some [0, 0, 0, 2, 0, 0] := by
  constructor
  · intro t work pts hscan m hm
    have hlen := scan?_length t work pts hscan
    have hsome := scan?_eq_specMax t work pts hscan m (by omega)
    rw [List.getElem?_eq_getElem (by omega : m < pts.length)] at hsome
    have hval : pts[m] = specMax t work m := Option.some.inj hsome
    simp only [List.get_eq_getElem]
    exact hval
  · rfl

/-- C3, witness: the characterization applied to the empty tree on the
padded empty word. -/
theorem C3_pointwise_max_witness :
    ([0, 0, 0] : List Int).get ⟨1, by decide⟩ = specMax (Trie.mk none []) ['.', '.'] 1 :=
  C3_pointwise_max.1 (Trie.mk none []) ['.', '.'] [0, 0, 0] (by rfl) 1 (by decide)

/-- C4, counterexample: the stored exception vector for token `"a-b"` is
`[0, 0, 1, 0]`, of length `len(key) + 2`, not `len(key) + 1` as the claim
states (there is a leading 0 sentinel in addition to the per-boundary
slots). -/
theorem C4_counterexample :
    (mkHyphenator? "" "a-b").map Hyphenator.exceptions
        = some [(['a', 'b'], [0, 0, 1, 0])] ∧
      ([0, 0, 1, 0] : List Int).length ≠ ['a', 'b'].length + 1 := by
  exact ⟨rfl, by decide⟩

/-- C4, amended: for every exceptions-string token made of lower-case
letters and hyphens, the map stores an entry under the hyphen-stripped
token as key; the stored vector is the entry computed from the last such
token with that key, and every such entry has length `len(key) + 2`,
begins with a 0 sentinel, and has slot `i+1` equal to 1 exactly when the
gap at letter boundary `i` of the spelling is a single hyphen. -/
theorem C4_exception_entries (pats exc : String) (h : Hyphenator)
    (hmk : mkHyphenator? pats exc = some h)
    (hall : ∀ tok ∈ pySplit exc.data, AllowedExc tok)
    (tok : List Char) (htok : tok ∈ pySplit exc.data) :
    (∃ tok' ∈ pySplit exc.data,
      tok'.filter (· ≠ '-') = tok.filter (· ≠ '-') ∧
      assocFind? h.exceptions (tok.filter (· ≠ '-')) = some (exceptionEntry tok').2) ∧
    (exceptionEntry tok).2.length = (tok.filter (· ≠ '-')).length + 2 ∧
    (exceptionEntry tok).2[0]? = some 0 ∧
    (∀ i seg, (splitOnPred isLowerAZ tok)[i]? = some seg →
      (exceptionEntry tok).2[i + 1]? = some (if seg = ['-'] then (1 : Int) else 0)) := by
  obtain ⟨-, hE⟩ := mkHyphenator?_parts pats exc h hmk
  obtain ⟨hkey, hlen, hhead, hslots⟩ := exceptionEntry_shape tok (hall tok htok)
  refine ⟨?_, ?_, hhead, hslots⟩
  · obtain ⟨tok', htok', hkey', hfind⟩ := buildExceptions_lookup _ tok htok
    refine ⟨tok', htok', ?_, ?_⟩
    · have := hkey'
      rw [exceptionEntry_shape tok' (hall tok' htok') |>.1, hkey] at this
      exact this
    · rw [hE]
      have : (exceptionEntry tok).1 = tok.filter (· ≠ '-') := hkey
      rw [← this]
      exact hfind
  · rw [← hkey]
    exact hlen

/-- C4, witness: the amended description applied to the exception string
`"a-b"` and its only token. -/
theorem C4_exception_entries_witness :
    (∃ tok' ∈ pySplit (("a-b" : String).data),
      tok'.filter (· ≠ '-') = ['a', '-', 'b'].filter (· ≠ '-') ∧
      assocFind? (Hyphenator.mk (Trie.mk none []) [(['a', 'b'], [0, 0, 1, 0])]).exceptions
        (['a', '-', 'b'].filter (· ≠ '-'))
        = some (exceptionEntry tok').2) ∧
    (exceptionEntry ['a', '-', 'b']).2.length
        = (['a', '-', 'b'].filter (· ≠ '-')).length + 2 ∧
    (exceptionEntry ['a', '-', 'b']).2[0]? = some 0 ∧
    (∀ i seg, (splitOnPred isLowerAZ ['a', '-', 'b'])[i]? = some seg →
      (exceptionEntry ['a', '-', 'b']).2[i + 1]?
        = some (if seg = ['-'] then (1 : Int) else 0)) :=
  C4_exception_entries "" "a-b" ⟨Trie.mk none [], [(['a', 'b'], [0, 0, 1, 0])]⟩
    (by rfl) (by decide) ['a', '-', 'b'] (by decide)

/-- C5, counterexample: insertion order is NOT always irrelevant.  The
distinct tokens `"a1b"` and `"a2b"` share the letter path `"ab"`, so the
later insertion silently overwrites the earlier payload and the two
orders hyphenate `"ab"` differently. -/
theorem C5_counterexample :
    ((mkHyphenator? "a1b a2b" "").bind fun h => hyphenateWord? h ['a', 'b'])
        = some [['a', 'b']] ∧
      ((mkHyphenator? "a2b a1b" "").bind fun h => hyphenateWord? h ['a', 'b'])
        = some [['a'], ['b']] ∧
      ([['a', 'b']] : List (List Char)) ≠ [['a'], ['b']] := by
  exact ⟨rfl, rfl, by decide⟩

/-- C5, amended: for pattern token lists in which no two tokens disagree
about the weights of the same letter path (a pattern set without true
duplicates), any two insertion orders give Hyphenators with identical
`hyphenate_word` results on every word. -/
theorem C5_insertion_order (pats1 pats2 exc : String) (h1 h2 : Hyphenator)
    (hperm : (pySplit pats1.data).Perm (pySplit pats2.data))
    (hagree : PatAgree (pySplit pats1.data))
    (hmk1 : mkHyphenator? pats1 exc = some h1)
    (hmk2 : mkHyphenator? pats2 exc = some h2)
    (word : List Char) :
    hyphenateWord? h1 word = hyphenateWord? h2 word := by
  obtain ⟨hT1, hE1⟩ := mkHyphenator?_parts pats1 exc h1 hmk1
  obtain ⟨hT2, hE2⟩ := mkHyphenator?_parts pats2 exc h2 hmk2
  have hexcEq : h2.exceptions = h1.exceptions := by rw [hE1, hE2]
  rcases hfind : assocFind? h1.exceptions (word.map pyLower) with _ | pts
  · rw [hyphenateWord?_noexc h1 word hfind,
      hyphenateWord?_noexc h2 word (by rw [hexcEq]; exact hfind),
      scan?_congr h1.tree h2.tree
        (buildTree?_perm_payloadAt _ _ hperm hagree _ _ hT1 hT2)
        (buildTree?_payloadLe _ _ hT1) (buildTree?_payloadLe _ _ hT2)]
  · rw [hyphenateWord?_exc h1 word pts hfind,
      hyphenateWord?_exc h2 word pts (by rw [hexcEq]; exact hfind)]

/-- C5, witness: the two orders of the duplicate-free set
`{"a1b", "b2c"}` agree on `"abc"`. -/
theorem C5_insertion_order_witness :
    hyphenateWord? ((mkHyphenator? "a1b b2c" "").getD ⟨Trie.mk none [], []⟩)
        ['a', 'b', 'c']
      = hyphenateWord? ((mkHyphenator? "b2c a1b" "").getD ⟨Trie.mk none [], []⟩)
        ['a', 'b', 'c'] := by
  refine C5_insertion_order "a1b b2c" "b2c a1b" ""
    ((mkHyphenator? "a1b b2c" "").getD ⟨Trie.mk none [], []⟩)
    ((mkHyphenator? "b2c a1b" "").getD ⟨Trie.mk none [], []⟩)
    ?_ ?_ (by rfl) (by rfl) ['a', 'b', 'c']
  · rw [show pySplit (("a1b b2c" : String).data) = [['a', '1', 'b'], ['b', '2', 'c']] from rfl,
      show pySplit (("b2c a1b" : String).data) = [['b', '2', 'c'], ['a', '1', 'b']] from rfl]
    exact List.Perm.swap ['b', '2', 'c'] ['a', '1', 'b'] []
  · intro a ha b hb cpa cpb hpa hpb hch
    rw [show pySplit (("a1b b2c" : String).data) = [['a', '1', 'b'], ['b', '2', 'c']] from rfl]
      at ha hb
    have e1 : parsePattern? ['a', '1', 'b'] = some (['a', 'b'], ([0, 1, 0] : List Int)) := rfl
    have e2 : parsePattern? ['b', '2', 'c'] = some (['b', 'c'], ([0, 2, 0] : List Int)) := rfl
    simp only [List.mem_cons, List.not_mem_nil, or_false] at ha hb
    rcases ha with ha | ha <;> rcases hb with hb | hb <;> subst ha <;> subst hb
    · rw [e1] at hpa hpb
      rw [← Option.some.inj hpa, ← Option.some.inj hpb]
    · rw [e1] at hpa
      rw [e2] at hpb
      rw [← Option.some.inj hpa, ← Option.some.inj hpb] at hch
      exact absurd hch (by decide)
    · rw [e2] at hpa
      rw [e1] at hpb
      rw [← Option.some.inj hpa, ← Option.some.inj hpb] at hch
      exact absurd hch (by decide)
    · rw [e2] at hpa hpb
      rw [← Option.some.inj hpa, ← Option.some.inj hpb]

theorem valid_count (tok : List Char)
    (h : ∀ c ∈ tok, isPatLetter c = true ∨ isDigitC c = true) :
    tok.countP isPatLetter = tok.countP (fun c => !isDigitC c) := by
  induction tok with
  | nil => simp
  | cons c cs ih =>
    have ih' := ih (fun a ha => h a (List.mem_cons_of_mem c ha))
    rcases h c (List.mem_cons_self c cs) with hc | hc
    · have hnd := patLetter_not_digit c hc
      simp [List.countP_cons, hc, hnd, ih']
    · have hnl : isPatLetter c = false := by
        cases hl : isPatLetter c with
        | false => rfl
        | true => exact absurd hc (by simp [patLetter_not_digit c hl])
      simp [List.countP_cons, hnl, hc, ih']

/-- C6: `hyphenate_word` always returns at least one piece, and when no
interior slot of the aggregated vector is odd (no legal break point) it
returns exactly one piece, the whole word; e.g. `"xyz"` against the empty
pattern set gives `["xyz"]`. -/
theorem C6_at_least_one_piece :
    (∀ (h : Hyphenator) (word : List Char) (res : List (List Char)),
      hyphenateWord? h word = some res → res ≠ []) ∧
    (∀ (h : Hyphenator) (word : List Char) (pts : List Int),
      assocFind? h.exceptions (word.map pyLower) = none →
      scan? h.tree ('.' :: (word.map pyLower ++ ['.'])) = some pts →
      (∀ k, k < word.length → ∀ v : Int, pts[k + 2]? = some v → v % 2 = 0) →
      hyphenateWord? h word = some [word]) ∧
    ((mkHyphenator? "" "").bind fun h => hyphenateWord? h ("xyz".data))
      = some ["xyz".data] := by
  refine ⟨?_, ?_, rfl⟩
  · intro h word res hres
    rcases hfind : assocFind? h.exceptions (word.map pyLower) with _ | pts
    · rw [hyphenateWord?_noexc h word hfind, Option.map_eq_some'] at hres
      obtain ⟨pts, -, hres⟩ := hres
      exact hres ▸ buildPieces_ne_nil word (pts.drop 2)
    · rw [hyphenateWord?_exc h word pts hfind] at hres
      have hres := Option.some.inj hres
      exact hres ▸ buildPieces_ne_nil word (pts.drop 2)
  · intro h word pts hfind hscan heven
    rw [hyphenateWord?_noexc h word hfind, hscan, Option.map_some']
    have hlen := scan?_length _ _ _ hscan
    simp only [List.length_cons, List.length_append, List.length_map,
      List.length_singleton] at hlen
    congr 1
    apply buildPieces_all_even
    · simp only [List.length_drop, hlen]
      omega
    · intro cp hcp
      obtain ⟨i, hi, hget⟩ := List.getElem_of_mem hcp
      have hiw : i < word.length := by
        rw [List.length_zip] at hi
        omega
      have hid : i < (pts.drop 2).length := by
        rw [List.length_zip] at hi
        omega
      rw [List.getElem_zip] at hget
      have hq : pts[i + 2]? = some ((pts.drop 2).get ⟨i, hid⟩) := by
        rw [show i + 2 = 2 + i by omega, ← List.getElem?_drop,
          List.getElem?_eq_getElem hid, List.get_eq_getElem]
      have hv := heven i hiw _ hq
      have hcp2 : cp.2 = (pts.drop 2).get ⟨i, hid⟩ := by
        rw [← hget, List.get_eq_getElem]
      rw [hcp2]
      omega

/-- C6, witness: the no-odd-slot half applied to the empty Hyphenator and
the word `"x"`. -/
theorem C6_at_least_one_piece_witness :
    hyphenateWord? ⟨Trie.mk none [], []⟩ ['x'] = some [['x']] := by
  refine C6_at_least_one_piece.2.1 ⟨Trie.mk none [], []⟩ ['x'] [0, 0, 0, 0]
    (by rfl) (by rfl) ?_
  intro k hk v hv
  have hk0 : k = 0 := by simp at hk; omega
  subst hk0
  have : v = 0 := (Option.some.inj hv).symm
  omega

/-- C7: on a token over the supported alphabet (pattern letters and ASCII
digits) the parse succeeds and yields one weight per gap — the value of
the digit run written at that gap, 0 when it is empty — with
`len(points) = len(letters) + 1`; consequently every terminal payload in
a tree built from such tokens sits at depth `len(payload) - 1`. -/
theorem C7_parse_invariant :
    (∀ tok : List Char, (∀ c ∈ tok, isPatLetter c = true ∨ isDigitC c = true) →
      ∃ (chars : List Char) (pts : List Int), parsePattern? tok = some (chars, pts) ∧
        pts.length = chars.length + 1 ∧
        ∀ (j : Nat) (seg : List Char), (splitOnPred isPatLetter tok)[j]? = some seg →
          pts[j]? = some ((natOfDigits seg : Int))) ∧
    (∀ (toks : List (List Char)) (T : Trie),
      (∀ tok ∈ toks, ∀ c ∈ tok, isPatLetter c = true ∨ isDigitC c = true) →
      buildTree? Trie.empty toks = some T →
      ∀ path node, T.findPath? path = some node →
        ∀ p, node.payload = some p → p.length = path.length + 1) := by
  constructor
  · intro tok hvalid
    have hdig : ∀ s ∈ splitOnPred isPatLetter tok, ∀ c ∈ s, isDigitC c = true := by
      intro s hs c hc
      obtain ⟨hmem, hnl⟩ := splitOnPred_mem isPatLetter tok s hs c hc
      rcases hvalid c hmem with hl | hd
      · rw [hl] at hnl
        cases hnl
      · exact hd
    obtain ⟨pts, hpts⟩ := segsInt?_of_digits _ hdig
    refine ⟨tok.filter (fun c => !isDigitC c), pts, ?_, ?_, ?_⟩
    · rw [parsePattern?, hpts, Option.map_some']
    · rw [segsInt?_length _ _ hpts, splitOnPred_length, valid_count tok hvalid,
        List.countP_eq_length_filter]
    · intro j seg hseg
      obtain ⟨v, hv1, hv2⟩ := segsInt?_get _ _ hpts j seg hseg
      rw [segInt?_of_digits seg (hdig seg ?_)] at hv1
      · rw [hv2, ← Option.some.inj hv1]
      · exact List.getElem?_mem hseg
  · intro toks T hvalid hbuild path node hpath p hp
    have hpa : T.payloadAt path = some p := by
      rw [Trie.payloadAt, hpath, Option.some_bind, hp]
    rw [buildTree?_payloadAt toks _ T hbuild path, payloadAt_empty] at hpa
    rcases chainPayload_some toks none path p hpa with
      ⟨tok, htok, cp, hcp, hcp1, hcp2⟩ | hf
    · obtain ⟨chars, pts⟩ := cp
      simp only at hcp1 hcp2
      obtain ⟨hchars, hlen⟩ := parsePattern?_points tok chars pts hcp
      rw [← hcp2, ← hcp1, hlen, valid_count tok (hvalid tok htok),
        List.countP_eq_length_filter, ← hchars]
    · cases hf

/-- C7, witness: the parse contract applied to the token `"a1b"`. -/
theorem C7_parse_invariant_witness :
    ∃ (chars : List Char) (pts : List Int), parsePattern? ['a', '1', 'b'] = some (chars, pts) ∧
      pts.length = chars.length + 1 ∧
      ∀ (j : Nat) (seg : List Char), (splitOnPred isPatLetter ['a', '1', 'b'])[j]? = some seg →
        pts[j]? = some ((natOfDigits seg : Int)) :=
  C7_parse_invariant.1 ['a', '1', 'b'] (by decide)

/-- C8: for every Hyphenator the constructor actually builds,
`hyphenate_word` succeeds on every string input — it is total, raising no
error. -/
theorem C8_totality (pats exc : String) (h : Hyphenator)
    (hmk : mkHyphenator? pats exc = some h) (word : List Char) :
    ∃ res, hyphenateWord? h word = some res :=
  hyphenateWord?_total pats exc h hmk word

/-- C8, witness: totality on a word full of non-alphabet characters. -/
theorem C8_totality_witness :
    ∃ res, hyphenateWord? ⟨Trie.mk none [], []⟩ ['#', '9', 'Q'] = some res :=
  C8_totality "" "" ⟨Trie.mk none [], []⟩ (by rfl) ['#', '9', 'Q']

/-- C9: on the empty word every constructed Hyphenator returns exactly
one piece, the empty string, and `hyphenate_word_as_string` returns the
empty string. -/
theorem C9_empty_word (pats exc : String) (h : Hyphenator)
    (hmk : mkHyphenator? pats exc = some h) :
    hyphenateWord? h [] = some [[]] ∧ hyphenateWordAsString? h [] = some [] := by
  have h1 : hyphenateWord? h [] = some [[]] := by
    rcases hfind : assocFind? h.exceptions (([] : List Char).map pyLower) with _ | pts
    · obtain ⟨pts, hscan⟩ := scan?_some h.tree ('.' :: (([] : List Char).map pyLower ++ ['.']))
        (mkHyphenator?_payloadLe pats exc h hmk)
      rw [hyphenateWord?_noexc h [] hfind, hscan, Option.map_some', buildPieces_nil]
    · rw [hyphenateWord?_exc h [] pts hfind, buildPieces_nil]
  refine ⟨h1, ?_⟩
  rw [hyphenateWordAsString?, h1]
  rfl

/-- C9, witness: the empty word on the empty Hyphenator. -/
theorem C9_empty_word_witness :
    hyphenateWord? ⟨Trie.mk none [], []⟩ [] = some [[]] ∧
      hyphenateWordAsString? ⟨Trie.mk none [], []⟩ [] = some [] :=
  C9_empty_word "" "" ⟨Trie.mk none [], []⟩ (by rfl)

end Hyphenate
